import Mathlib

/-!
Verification development for the SAW / WP decision-support calculator
(single source file `app.py`).

The numeric core of the program is embedded shallowly:

* pandas dataframes of criterion values become `List (List K)` (rows =
  alternatives, columns = criteria, in the fixed order of `CRIT_KEYS`);
* pandas series become `List K`;
* Python floats are modelled as exact ordered-field scalars (`ℚ` where
  everything is computable, `ℝ` where real exponentiation is needed);
* operations that can raise (dict lookup `TFN[v]`, division by a zero
  sum) return `Option`;
* the in-place column assignments of `saw_normalize` / `wp_full` are
  modelled in a small heap of dataframe/series cells, so that the
  copy-vs-alias behaviour of the source is visible.
-/

/-- Direction of a criterion, the `"type"` field of the `CRITERIA` dict
in the source (`"benefit"` or `"cost"`). -/
inductive CType where
  | benefit : CType
  | cost : CType
deriving DecidableEq

/-- The directions of the five registered criteria, in the order of
`CRIT_KEYS = [C1, C2, C3, C4, C5]`: C1 (Harga) is cost, the rest are
benefit. -/
def CRITERIA_types : List CType :=
  [CType.cost, CType.benefit, CType.benefit, CType.benefit, CType.benefit]

/-- The default weights of the five registered criteria, in the order of
`CRIT_KEYS`: 0.30, 0.25, 0.15, 0.20, 0.10. -/
def default_weights : List ℚ :=
  [3/10, 1/4, 3/20, 1/5, 1/10]

/-- The fixed triangular-fuzzy-number lookup table `TFN` of the source.
A Python dict access `TFN[v]` raises `KeyError` outside the five keys,
modelled by `none`. -/
def TFN (v : ℤ) : Option (ℚ × ℚ × ℚ) :=
  if v = 1 then some (0, 0, 1)
  else if v = 2 then some (0, 1, 2)
  else if v = 3 then some (1, 2, 3)
  else if v = 4 then some (2, 3, 4)
  else if v = 5 then some (3, 4, 4)
  else none

/-- The source function `fuzzify_value(v)`: truncate to an integer and
look the value up in the `TFN` table (the lookup raises `KeyError`
outside 1..5, which nothing in the program catches). -/
def fuzzify_value (v : ℤ) : Option (ℚ × ℚ × ℚ) :=
  TFN v

/-- Centroid reduction of one triangular fuzzy number, the per-cell
computation `(l + m + u) / 3.0` performed by the source function
`defuzzify` on every criterion column. -/
def defuzzify (t : ℚ × ℚ × ℚ) : ℚ :=
  (t.1 + t.2.1 + t.2.2) / 3

/-- The body of the Simpan Bobot button handler: `s = sum(new_weights
.values())` followed by `{k: v/s for k, v in new_weights.items()}`.
Python raises `ZeroDivisionError` on `v / 0.0`, modelled by `none`;
there is no zero-sum guard in the source. -/
def simpan_bobot (raw : List ℚ) : Option (List ℚ) :=
  let s := raw.sum
  if s = 0 then none else some (raw.map (fun v => v / s))

/-- The descending sort used by `Series.rank(ascending=False)`:
insertion sort under the reversed order. -/
def sortDesc {K : Type} [LinearOrder K] (l : List K) : List K :=
  List.insertionSort (· ≥ ·) l

/-- The call `rank(ascending=False, method="min").astype(int)` of the
source: every entry receives 1 plus the position of its first
occurrence in the descending sort, so a group of ties shares the
smallest position of the group. -/
def rankDescMin {K : Type} [LinearOrder K] [DecidableEq K] (l : List K) : List ℕ :=
  l.map (fun x => 1 + (sortDesc l).indexOf x)

/-- Maximum of a pandas column (`X.max()` on one column); the source
never takes it over an empty frame, so the empty default is arbitrary. -/
def listMax {K : Type} [LinearOrder K] [Zero K] : List K → K
  | [] => 0
  | [a] => a
  | a :: b :: t => max a (listMax (b :: t))

/-- Minimum of a pandas column (`X.min()` on one column). -/
def listMin {K : Type} [LinearOrder K] [Zero K] : List K → K
  | [] => 0
  | [a] => a
  | a :: b :: t => min a (listMin (b :: t))

/-- Column `c` of the decision matrix (missing entries default to 0;
all theorems carry the row-length hypotheses making them irrelevant). -/
def colVals {K : Type} [Zero K] (X : List (List K)) (c : ℕ) : List K :=
  X.map (fun r => r.getD c 0)

/-- The source function `saw_normalize(X)`: per criterion column `c`,
benefit columns become `X[c] / maxv[c]` and cost columns become
`minv[c] / X[c]`. -/
def saw_normalize {K : Type} [LinearOrderedField K]
    (types : List CType) (X : List (List K)) : List (List K) :=
  X.map (fun row =>
    (List.range types.length).map (fun c =>
      match types.getD c CType.benefit with
      | CType.benefit => row.getD c 0 / listMax (colVals X c)
      | CType.cost => listMin (colVals X c) / row.getD c 0))

/-- The product `norm * w` of `saw_full` (dataframe times series,
aligned on columns). -/
def weightRows {K : Type} [LinearOrderedField K]
    (w : List K) (N : List (List K)) : List (List K) :=
  N.map (fun nrow => (nrow.zip w).map (fun p => p.1 * p.2))

/-- The `weighted` dataframe of `saw_full`. -/
def saw_weighted {K : Type} [LinearOrderedField K]
    (types : List CType) (w : List K) (X : List (List K)) : List (List K) :=
  weightRows w (saw_normalize types X)

/-- The `score` series of `saw_full`: row sums of the weighted frame. -/
def saw_score {K : Type} [LinearOrderedField K]
    (types : List CType) (w : List K) (X : List (List K)) : List K :=
  (saw_weighted types w X).map List.sum

/-- The `rank` series of `saw_full`. -/
def saw_rank {K : Type} [LinearOrderedField K]
    (types : List CType) (w : List K) (X : List (List K)) : List ℕ :=
  rankDescMin (saw_score types w X)

/-- The full return value of `saw_full`: normalized frame, weighted
frame, and the score and rank columns of the result frame. -/
def saw_full {K : Type} [LinearOrderedField K]
    (types : List CType) (w : List K) (X : List (List K)) :
    List (List K) × List (List K) × List K × List ℕ :=
  (saw_normalize types X, saw_weighted types w X, saw_score types w X,
    saw_rank types w X)

/-- The clip floor `eps = 1e-9` used by `wp_full`. -/
noncomputable def wpEps : ℝ :=
  1 / 1000000000

/-- The exponent series of `wp_full`: `exp = w.copy()` followed by the
in-place updates `exp[c] = -abs(w[c])` for every cost criterion (indices
past the criterion list keep their copied value, matching a loop that
only visits `CRIT_KEYS`). -/
noncomputable def wp_exp (types : List CType) (w : List ℝ) : List ℝ :=
  (List.range w.length).map (fun c =>
    match types.getD c CType.benefit with
    | CType.benefit => w.getD c 0
    | CType.cost => -|w.getD c 0|)

/-- Row products of `X_safe.pow(e)` for a given exponent series `e`,
where `X_safe = X.clip(lower=eps)`; a dataframe power with a series
aligns the series on columns, and `prod(axis=1)` multiplies across each
row. -/
noncomputable def wp_S_of (e : List ℝ) (X : List (List ℝ)) : List ℝ :=
  X.map (fun row =>
    (((row.map (fun x => max x wpEps)).zip e).map (fun p => p.1 ^ p.2)).prod)

/-- The `S` series of `wp_full`. -/
noncomputable def wp_S (types : List CType) (w : List ℝ) (X : List (List ℝ)) :
    List ℝ :=
  wp_S_of (wp_exp types w) X

/-- The `V = S / S.sum()` series of `wp_full`. -/
noncomputable def wp_V (types : List CType) (w : List ℝ) (X : List (List ℝ)) :
    List ℝ :=
  (wp_S types w X).map (fun s => s / (wp_S types w X).sum)

/-- The `rank` series of `wp_full`. -/
noncomputable def wp_rank (types : List CType) (w : List ℝ) (X : List (List ℝ)) :
    List ℕ :=
  rankDescMin (wp_V types w X)

/-- The full return value of `wp_full`: the exponent series and the S, V
and rank columns of the result frame. -/
noncomputable def wp_full (types : List CType) (w : List ℝ) (X : List (List ℝ)) :
    List ℝ × List ℝ × List ℝ × List ℕ :=
  (wp_exp types w, wp_S types w X, wp_V types w X, wp_rank types w X)

/-- One row of the `comp` table built on the Pembanding page, generic in
the scalar type of the two score columns; alternative names are modelled
as numeric identifiers. -/
structure CompRow (S : Type) where
  nama : ℕ
  score_saw : S
  rank_saw : ℕ
  score_wp : S
  rank_wp : ℕ
deriving DecidableEq

/-- Construction of the `comp` dataframe: `pd.DataFrame` over
`df_used["nama"]`, `saw["score"].values`, `saw["rank"].values`,
`wp["V"].values` and `wp["rank"].values` — the `.values` accessors strip
the index, so the SAW and WP result sets are joined to the names by row
position. -/
def mkComp {S : Type} (names : List ℕ) (saw : List (S × ℕ)) (wp : List (S × ℕ)) :
    List (CompRow S) :=
  (names.zip (saw.zip wp)).map (fun p =>
    ⟨p.1, p.2.1.1, p.2.1.2, p.2.2.1, p.2.2.2⟩)

/-- Accumulator of `idxmin`: strict comparison keeps the earlier row on
ties, so the overall result is the first row attaining the minimum. -/
def idxminAcc {A : Type} (f : A → ℕ) : A → List A → A
  | a, [] => a
  | a, b :: t => if f b < f a then idxminAcc f b t else idxminAcc f a t

/-- `comp[col].idxmin()` followed by `comp.loc[..., "nama"]`: the first
row holding the minimal value of `f` (`none` only on an empty table,
where pandas would raise). -/
def firstMinBy {A : Type} (f : A → ℕ) : List A → Option A
  | [] => none
  | a :: t => some (idxminAcc f a t)

/-- The `best_saw` lookup of the Pembanding page. -/
def best_saw {S : Type} (comp : List (CompRow S)) : Option ℕ :=
  (firstMinBy (fun r => r.rank_saw) comp).map (fun r => r.nama)

/-- The `best_wp` lookup of the Pembanding page. -/
def best_wp {S : Type} (comp : List (CompRow S)) : Option ℕ :=
  (firstMinBy (fun r => r.rank_wp) comp).map (fun r => r.nama)

/-- The agreement verdict `best_saw == best_wp` of the Pembanding page. -/
def agreement {S : Type} (comp : List (CompRow S)) : Bool :=
  decide (best_saw comp = best_wp comp)

/-- A runtime object of the scoring pipeline: a dataframe or a series. -/
inductive Obj where
  | df (d : List (List ℝ)) : Obj
  | ser (s : List ℝ) : Obj

/-- Dataframe payload of a heap object. -/
def Obj.asDf : Obj → List (List ℝ)
  | Obj.df d => d
  | Obj.ser _ => []

/-- Series payload of a heap object. -/
def Obj.asSer : Obj → List ℝ
  | Obj.ser s => s
  | Obj.df _ => []

/-- The heap: Python objects addressed by reference (list index). -/
abbrev Heap := List Obj

/-- Dereference a heap cell. -/
def hGet (h : Heap) (r : ℕ) : Obj :=
  h.getD r (Obj.ser [])

/-- Allocate a fresh object, returning the new heap and its reference. -/
def hAlloc (h : Heap) (v : Obj) : Heap × ℕ :=
  (h ++ [v], h.length)

/-- Overwrite the object behind a reference. -/
def hSet (h : Heap) (r : ℕ) (v : Obj) : Heap :=
  h.set r v

/-- Heap-level run of `saw_full(X, weights)` with `X` behind reference
`xr` and the weight series behind `wr`: `norm = X.copy().astype(float)`
allocates a fresh cell, the per-column assignments `norm[c] = ...`
update that cell in place (collapsed into a single update holding the
final column values), and `weighted`, `score` and `rank` are new objects
computed from the heap contents. Returns the final heap, the reference
of `norm`, and the weighted/score/rank values. -/
noncomputable def saw_full_heap (types : List CType) (h : Heap) (xr wr : ℕ) :
    Heap × ℕ × (List (List ℝ) × List ℝ × List ℕ) :=
  let X := (hGet h xr).asDf
  let w := (hGet h wr).asSer
  let p := hAlloc h (Obj.df X)
  let h2 := hSet p.1 p.2 (Obj.df (saw_normalize types X))
  let norm := (hGet h2 p.2).asDf
  (h2, p.2, (weightRows w norm, (weightRows w norm).map List.sum,
    rankDescMin ((weightRows w norm).map List.sum)))

/-- Heap-level run of `wp_full(X, weights)`: `exp = w.copy()` allocates
a fresh cell, the cost-criterion assignments `exp[c] = -abs(w[c])`
update it in place (collapsed into a single update), and `X_safe`, `S`,
`V` and `rank` are new objects computed from the heap contents — note
the decision matrix is read back from the heap after the exponent
updates, as in the source. Returns the final heap, the reference of
`exp`, and the S/V/rank values. -/
noncomputable def wp_full_heap (types : List CType) (h : Heap) (xr wr : ℕ) :
    Heap × ℕ × (List ℝ × List ℝ × List ℕ) :=
  let w := (hGet h wr).asSer
  let p := hAlloc h (Obj.ser w)
  let h2 := hSet p.1 p.2 (Obj.ser (wp_exp types w))
  let e := (hGet h2 p.2).asSer
  let X := (hGet h2 xr).asDf
  let S := wp_S_of e X
  let V := S.map (fun s => s / S.sum)
  (h2, p.2, (S, V, rankDescMin V))

/-- Summing a list that was divided entrywise by a constant divides the
sum by that constant. -/
theorem list_sum_map_div (l : List ℚ) (s : ℚ) :
    (l.map (fun v => v / s)).sum = l.sum / s := by
  induction l with
  | nil => simp
  | cons a t ih => simp [ih, add_div]

/-- C3: for every ordinal 1..5 the fuzzifier returns exactly the tabled
triangular fuzzy number, and its centroid defuzzification returns
exactly 1/3, 1, 2, 3 and 11/3 respectively. -/
theorem fuzzify_defuzzify_table :
    fuzzify_value 1 = some (0, 0, 1) ∧
    fuzzify_value 2 = some (0, 1, 2) ∧
    fuzzify_value 3 = some (1, 2, 3) ∧
    fuzzify_value 4 = some (2, 3, 4) ∧
    fuzzify_value 5 = some (3, 4, 4) ∧
    (fuzzify_value 1).map defuzzify = some (1/3) ∧
    (fuzzify_value 2).map defuzzify = some 1 ∧
    (fuzzify_value 3).map defuzzify = some 2 ∧
    (fuzzify_value 4).map defuzzify = some 3 ∧
    (fuzzify_value 5).map defuzzify = some (11/3) := by
  norm_num [fuzzify_value, TFN, defuzzify]

/-- C8: every input ordinal outside 1..5 makes the fuzzifier fail (the
`KeyError` of the dict lookup propagates to the caller); no out-of-range
value is ever mapped to a triangular fuzzy number. -/
theorem fuzzify_out_of_range_fails (v : ℤ) (h : v < 1 ∨ 5 < v) :
    fuzzify_value v = none := by
  unfold fuzzify_value TFN
  rcases h with h | h <;>
    repeat' rw [if_neg (by omega : ¬ _ = _)]

theorem fuzzify_out_of_range_fails_witness :
    ((6 : ℤ) < 1 ∨ 5 < (6 : ℤ)) ∧ fuzzify_value 6 = none :=
  ⟨by decide, fuzzify_out_of_range_fails 6 (by decide)⟩

/-- C5 counterexample: on the all-zero raw weight vector the handler
does not return the registry defaults — the division by the zero sum
fails (Python raises `ZeroDivisionError`). -/
theorem simpan_bobot_zero_sum_fails :
    simpan_bobot [0, 0, 0, 0, 0] = none ∧
    simpan_bobot [0, 0, 0, 0, 0] ≠ some default_weights := by
  norm_num [simpan_bobot]
  simp

/-- C5 amended: a zero-sum raw weight vector makes the handler fail with
a division-by-zero error (it never falls back to the defaults), and a
raw vector with nonzero sum is rescaled entrywise by the sum, so the
stored weights sum to 1. -/
theorem simpan_bobot_spec (raw : List ℚ) :
    (raw.sum = 0 → simpan_bobot raw = none) ∧
    (raw.sum ≠ 0 →
      simpan_bobot raw = some (raw.map (fun v => v / raw.sum)) ∧
      (raw.map (fun v => v / raw.sum)).sum = 1) := by
  constructor
  · intro h
    simp [simpan_bobot, h]
  · intro h
    refine ⟨by simp [simpan_bobot, h], ?_⟩
    rw [list_sum_map_div]
    exact div_self h

theorem simpan_bobot_spec_witness :
    (([1] : List ℚ).sum ≠ 0) ∧
    (simpan_bobot [1] = some ([1].map (fun v => v / ([1] : List ℚ).sum)) ∧
      (([1] : List ℚ).map (fun v => v / ([1] : List ℚ).sum)).sum = 1) :=
  ⟨by simp, (simpan_bobot_spec [1]).2 (by simp)⟩

/-- Index lookup distributes over a mapped list when in bounds. -/
theorem getD_map_of_lt {A B : Type} (f : A → B) (l : List A) (i : ℕ)
    (hi : i < l.length) (da : A) (db : B) :
    (l.map f).getD i db = f (l.getD i da) := by
  induction l generalizing i with
  | nil => simp at hi
  | cons a t ih =>
    cases i with
    | zero => rfl
    | succ n => simpa using ih n (by simpa using hi)

/-- In a descending-sorted list, the first occurrence of a member comes
right after the entries strictly larger than it. -/
theorem indexOf_sorted_ge {K : Type} [LinearOrder K] [DecidableEq K] (s : List K)
    (hs : List.Sorted (· ≥ ·) s) (x : K) (hx : x ∈ s) :
    s.indexOf x = s.countP (fun y => decide (x < y)) := by
  induction s with
  | nil => simp at hx
  | cons a t ih =>
    rw [List.sorted_cons] at hs
    obtain ⟨ha, ht⟩ := hs
    by_cases hxa : x = a
    · subst hxa
      rw [List.indexOf_cons_self]
      symm
      rw [List.countP_eq_zero]
      intro y hy
      rcases List.mem_cons.mp hy with rfl | hyt
      · simp
      · simp only [decide_eq_true_eq]
        exact not_lt.mpr (ha y hyt)
    · have hxt : x ∈ t := by
        rcases List.mem_cons.mp hx with h | h
        · exact absurd h hxa
        · exact h
      have hxlt : x < a := lt_of_le_of_ne (ha x hxt) hxa
      rw [List.indexOf_cons_ne _ (fun h => hxa h.symm),
        List.countP_cons_of_pos _ _ (by simp [hxlt]), ih ht hxt]

/-- Every in-bounds entry of `rankDescMin l` is 1 plus the number of
strictly larger scores. -/
theorem rankDescMin_getD {K : Type} [LinearOrder K] [DecidableEq K]
    (l : List K) (d : K) (i : ℕ) (hi : i < l.length) :
    (rankDescMin l).getD i 0 = 1 + l.countP (fun y => decide (l.getD i d < y)) := by
  unfold rankDescMin
  rw [getD_map_of_lt _ _ _ hi d 0]
  congr 1
  have hperm : (sortDesc l).Perm l := List.perm_insertionSort _ l
  have hmem : l.getD i d ∈ l := by
    rw [List.getD_eq_getElem l d hi]
    exact List.getElem_mem hi
  have hsorted : List.Sorted (· ≥ ·) (sortDesc l) := List.sorted_insertionSort _ l
  rw [indexOf_sorted_ge _ hsorted _ (hperm.mem_iff.mpr hmem)]
  exact hperm.countP_eq _

/-- C4: rank assignment (used for the SAW score vector and the WP
preference vector alike) is descending with the min tie method: each
entry's rank is 1 plus the number of strictly greater scores, and equal
scores receive equal ranks. -/
theorem rank_descending_min_ties (K : Type) [LinearOrder K] [DecidableEq K]
    (l : List K) (d : K) (i j : ℕ) (hi : i < l.length) (hj : j < l.length) :
    (rankDescMin l).getD i 0 = 1 + l.countP (fun y => decide (l.getD i d < y)) ∧
    (l.getD i d = l.getD j d →
      (rankDescMin l).getD i 0 = (rankDescMin l).getD j 0) := by
  refine ⟨rankDescMin_getD l d i hi, fun hij => ?_⟩
  rw [rankDescMin_getD l d i hi, rankDescMin_getD l d j hj, hij]

theorem rank_descending_min_ties_witness :
    (0 < ([3, 1, 3] : List ℚ).length) ∧ (2 < ([3, 1, 3] : List ℚ).length) ∧
    ((rankDescMin ([3, 1, 3] : List ℚ)).getD 0 0 =
        1 + ([3, 1, 3] : List ℚ).countP (fun y => decide (([3, 1, 3] : List ℚ).getD 0 0 < y)) ∧
      (([3, 1, 3] : List ℚ).getD 0 0 = ([3, 1, 3] : List ℚ).getD 2 0 →
        (rankDescMin ([3, 1, 3] : List ℚ)).getD 0 0 =
          (rankDescMin ([3, 1, 3] : List ℚ)).getD 2 0)) :=
  ⟨by decide, by decide,
    rank_descending_min_ties ℚ [3, 1, 3] 0 0 2 (by decide) (by decide)⟩

/-- Unfolding equation of `listMax` on a list of two or more entries. -/
theorem listMax_cons_cons {K : Type} [LinearOrder K] [Zero K] (a b : K) (t : List K) :
    listMax (a :: b :: t) = max a (listMax (b :: t)) := by
  simp [listMax]

/-- Unfolding equation of `listMin` on a list of two or more entries. -/
theorem listMin_cons_cons {K : Type} [LinearOrder K] [Zero K] (a b : K) (t : List K) :
    listMin (a :: b :: t) = min a (listMin (b :: t)) := by
  simp [listMin]

/-- Every member of a list is at most its column maximum. -/
theorem le_listMax {K : Type} [LinearOrder K] [Zero K] :
    ∀ {l : List K} {y : K}, y ∈ l → y ≤ listMax l
  | [], y, hy => by simp at hy
  | [a], y, hy => by
    rw [List.mem_singleton] at hy
    exact le_of_eq hy
  | a :: b :: t, y, hy => by
    rw [listMax_cons_cons]
    rcases List.mem_cons.mp hy with rfl | hyt
    · exact le_max_left _ _
    · exact le_trans (le_listMax hyt) (le_max_right _ _)

/-- The column maximum of a nonempty list is one of its members. -/
theorem listMax_mem {K : Type} [LinearOrder K] [Zero K] :
    ∀ {l : List K}, l ≠ [] → listMax l ∈ l
  | [], h => absurd rfl h
  | [a], _ => by simp [listMax]
  | a :: b :: t, _ => by
    rw [listMax_cons_cons]
    rcases max_choice a (listMax (b :: t)) with h | h <;> rw [h]
    · exact List.mem_cons_self a _
    · exact List.mem_cons_of_mem a (listMax_mem (by simp))

/-- Every member of a list is at least its column minimum. -/
theorem listMin_le {K : Type} [LinearOrder K] [Zero K] :
    ∀ {l : List K} {y : K}, y ∈ l → listMin l ≤ y
  | [], y, hy => by simp at hy
  | [a], y, hy => by
    rw [List.mem_singleton] at hy
    exact le_of_eq hy.symm
  | a :: b :: t, y, hy => by
    rw [listMin_cons_cons]
    rcases List.mem_cons.mp hy with rfl | hyt
    · exact min_le_left _ _
    · exact le_trans (min_le_right _ _) (listMin_le hyt)

/-- The column minimum of a nonempty list is one of its members. -/
theorem listMin_mem {K : Type} [LinearOrder K] [Zero K] :
    ∀ {l : List K}, l ≠ [] → listMin l ∈ l
  | [], h => absurd rfl h
  | [a], _ => by simp [listMin]
  | a :: b :: t, _ => by
    rw [listMin_cons_cons]
    rcases min_choice a (listMin (b :: t)) with h | h <;> rw [h]
    · exact List.mem_cons_self a _
    · exact List.mem_cons_of_mem a (listMin_mem (by simp))

/-- A list sum is the sum of its in-bounds indexed entries. -/
theorem list_sum_getD {M : Type} [AddCommMonoid M] (l : List M) :
    l.sum = ∑ i ∈ Finset.range l.length, l.getD i 0 := by
  induction l with
  | nil => simp
  | cons a t ih =>
    rw [List.sum_cons, ih, List.length_cons, Finset.sum_range_succ']
    simp [add_comm]

/-- A list product is the product of its in-bounds indexed entries. -/
theorem list_prod_getD {M : Type} [CommMonoid M] (l : List M) :
    l.prod = ∏ i ∈ Finset.range l.length, l.getD i 1 := by
  induction l with
  | nil => simp
  | cons a t ih =>
    rw [List.prod_cons, ih, List.length_cons, Finset.prod_range_succ']
    simp [mul_comm]

/-- In-bounds entries of `List.range`. -/
theorem getD_range {n c : ℕ} (h : c < n) : (List.range n).getD c 0 = c := by
  rw [List.getD_eq_getElem _ _ (by simpa using h)]
  simp

/-- Entrywise product of two series, looked up in bounds. -/
theorem getD_zip_mul {K : Type} [LinearOrderedField K] (l1 l2 : List K) (i : ℕ)
    (h1 : i < l1.length) (h2 : i < l2.length) :
    ((l1.zip l2).map (fun p => p.1 * p.2)).getD i 0 = l1.getD i 0 * l2.getD i 0 := by
  induction l1 generalizing l2 i with
  | nil => simp at h1
  | cons a t ih =>
    cases l2 with
    | nil => simp at h2
    | cons b s =>
      cases i with
      | zero => rfl
      | succ n => simpa using ih s n (by simpa using h1) (by simpa using h2)

/-- The normalized frame has one row per alternative. -/
theorem saw_normalize_length {K : Type} [LinearOrderedField K]
    (types : List CType) (X : List (List K)) :
    (saw_normalize types X).length = X.length := by
  simp [saw_normalize]

/-- Every row of the normalized frame has one entry per criterion. -/
theorem saw_normalize_row_length {K : Type} [LinearOrderedField K]
    (types : List CType) (X : List (List K)) (i : ℕ) (hi : i < X.length) :
    ((saw_normalize types X).getD i []).length = types.length := by
  unfold saw_normalize
  rw [getD_map_of_lt _ _ _ hi [] []]
  simp

/-- Entrywise characterization of `saw_normalize`. -/
theorem saw_normalize_getD {K : Type} [LinearOrderedField K]
    (types : List CType) (X : List (List K)) (i c : ℕ)
    (hi : i < X.length) (hc : c < types.length) :
    ((saw_normalize types X).getD i []).getD c 0 =
      match types.getD c CType.benefit with
      | CType.benefit => (X.getD i []).getD c 0 / listMax (colVals X c)
      | CType.cost => listMin (colVals X c) / (X.getD i []).getD c 0 := by
  unfold saw_normalize
  rw [getD_map_of_lt _ _ _ hi [] [],
    getD_map_of_lt _ _ _ (by simpa using hc) 0 0, getD_range hc]

/-- Entrywise characterization of the weighted frame. -/
theorem saw_weighted_getD {K : Type} [LinearOrderedField K]
    (types : List CType) (w : List K) (X : List (List K)) (i c : ℕ)
    (hi : i < X.length) (hc : c < types.length) (hw : w.length = types.length) :
    ((saw_weighted types w X).getD i []).getD c 0 =
      ((saw_normalize types X).getD i []).getD c 0 * w.getD c 0 := by
  unfold saw_weighted weightRows
  rw [getD_map_of_lt _ _ _ (by rw [saw_normalize_length]; exact hi) [] []]
  exact getD_zip_mul _ _ _
    (by rw [saw_normalize_row_length types X i hi]; exact hc)
    (by rw [hw]; exact hc)

/-- Every row of the weighted frame has one entry per criterion. -/
theorem saw_weighted_row_length {K : Type} [LinearOrderedField K]
    (types : List CType) (w : List K) (X : List (List K)) (i : ℕ)
    (hi : i < X.length) (hw : w.length = types.length) :
    ((saw_weighted types w X).getD i []).length = types.length := by
  unfold saw_weighted weightRows
  rw [getD_map_of_lt _ _ _ (by rw [saw_normalize_length]; exact hi) [] [],
    List.length_map, List.length_zip, saw_normalize_row_length types X i hi, hw,
    min_self]

/-- Each SAW score is the sum over criteria of the weighted row. -/
theorem saw_score_getD {K : Type} [LinearOrderedField K]
    (types : List CType) (w : List K) (X : List (List K)) (i : ℕ)
    (hi : i < X.length) (hw : w.length = types.length) :
    (saw_score types w X).getD i 0 =
      ∑ c ∈ Finset.range types.length, ((saw_weighted types w X).getD i []).getD c 0 := by
  unfold saw_score
  rw [getD_map_of_lt _ _ _
    (by rw [saw_weighted, weightRows, List.length_map, saw_normalize_length]; exact hi) [] 0]
  rw [list_sum_getD, saw_weighted_row_length types w X i hi hw]

/-- C1: SAW normalization divides benefit columns by the column maximum
and divides the column minimum by cost-column entries; the weighted
frame multiplies the normalized entries by the weights; each
alternative's SAW score is the sum of its weighted row. -/
theorem saw_normalization_weighting_score (K : Type) [LinearOrderedField K]
    (types : List CType) (w : List K) (X : List (List K))
    (hw : w.length = types.length) (i c : ℕ)
    (hi : i < X.length) (hc : c < types.length) :
    (types.getD c CType.benefit = CType.benefit →
      ((saw_normalize types X).getD i []).getD c 0 =
        (X.getD i []).getD c 0 / listMax (colVals X c)) ∧
    (types.getD c CType.benefit = CType.cost →
      ((saw_normalize types X).getD i []).getD c 0 =
        listMin (colVals X c) / (X.getD i []).getD c 0) ∧
    ((saw_weighted types w X).getD i []).getD c 0 =
      ((saw_normalize types X).getD i []).getD c 0 * w.getD c 0 ∧
    (saw_score types w X).getD i 0 =
      ∑ e ∈ Finset.range types.length, ((saw_weighted types w X).getD i []).getD e 0 := by
  refine ⟨fun hb => ?_, fun hb => ?_,
    saw_weighted_getD types w X i c hi hc hw,
    saw_score_getD types w X i hi hw⟩ <;>
    rw [saw_normalize_getD types X i c hi hc, hb]

theorem saw_normalization_weighting_score_witness :
    (([1] : List ℚ).length = ([CType.benefit] : List CType).length) ∧
    (0 < ([[2]] : List (List ℚ)).length) ∧ (0 < ([CType.benefit] : List CType).length) ∧
    (([CType.benefit].getD 0 CType.benefit = CType.benefit →
      ((saw_normalize [CType.benefit] ([[2]] : List (List ℚ))).getD 0 []).getD 0 0 =
        (([[2]] : List (List ℚ)).getD 0 []).getD 0 0 /
          listMax (colVals ([[2]] : List (List ℚ)) 0)) ∧
    ([CType.benefit].getD 0 CType.benefit = CType.cost →
      ((saw_normalize [CType.benefit] ([[2]] : List (List ℚ))).getD 0 []).getD 0 0 =
        listMin (colVals ([[2]] : List (List ℚ)) 0) /
          (([[2]] : List (List ℚ)).getD 0 []).getD 0 0) ∧
    ((saw_weighted [CType.benefit] [1] ([[2]] : List (List ℚ))).getD 0 []).getD 0 0 =
      ((saw_normalize [CType.benefit] ([[2]] : List (List ℚ))).getD 0 []).getD 0 0 *
        ([1] : List ℚ).getD 0 0 ∧
    (saw_score [CType.benefit] [1] ([[2]] : List (List ℚ))).getD 0 0 =
      ∑ e ∈ Finset.range ([CType.benefit] : List CType).length,
        ((saw_weighted [CType.benefit] [1] ([[2]] : List (List ℚ))).getD 0 []).getD e 0) :=
  ⟨by decide, by decide, by decide,
    saw_normalization_weighting_score ℚ [CType.benefit] [1] [[2]]
      (by decide) 0 0 (by decide) (by decide)⟩

/-- Benefit-column case of `saw_normalize_getD`. -/
theorem saw_normalize_getD_benefit {K : Type} [LinearOrderedField K]
    (types : List CType) (X : List (List K)) (i c : ℕ)
    (hi : i < X.length) (hc : c < types.length)
    (hty : types.getD c CType.benefit = CType.benefit) :
    ((saw_normalize types X).getD i []).getD c 0 =
      (X.getD i []).getD c 0 / listMax (colVals X c) := by
  rw [saw_normalize_getD types X i c hi hc, hty]

/-- Cost-column case of `saw_normalize_getD`. -/
theorem saw_normalize_getD_cost {K : Type} [LinearOrderedField K]
    (types : List CType) (X : List (List K)) (i c : ℕ)
    (hi : i < X.length) (hc : c < types.length)
    (hty : types.getD c CType.benefit = CType.cost) :
    ((saw_normalize types X).getD i []).getD c 0 =
      listMin (colVals X c) / (X.getD i []).getD c 0 := by
  rw [saw_normalize_getD types X i c hi hc, hty]

/-- The entry `X[i][c]` really sits in column `c`. -/
theorem getD_mem_colVals {K : Type} [Zero K] (X : List (List K)) (i c : ℕ)
    (hi : i < X.length) : (X.getD i []).getD c 0 ∈ colVals X c := by
  unfold colVals
  exact List.mem_map_of_mem _
    (by rw [List.getD_eq_getElem X [] hi]; exact List.getElem_mem hi)

/-- Columns of a nonempty matrix are nonempty. -/
theorem colVals_ne_nil {K : Type} [Zero K] (X : List (List K)) (c : ℕ)
    (hX : X ≠ []) : colVals X c ≠ [] := by
  unfold colVals
  simpa using hX

/-- C7 (amended): for a decision matrix whose benefit columns have a
positive maximum and no negative entry, whose cost columns are strictly
positive, and nonnegative weights summing to 1, every SAW score lies in
the closed interval from 0 to the weight sum, i.e. in the unit
interval. -/
theorem saw_score_unit_range (K : Type) [LinearOrderedField K]
    (types : List CType) (w : List K) (X : List (List K))
    (hw : w.length = types.length) (hw1 : w.sum = 1) (hw0 : ∀ x ∈ w, 0 ≤ x)
    (hben : ∀ c, c < types.length → types.getD c CType.benefit = CType.benefit →
      0 < listMax (colVals X c) ∧ ∀ y ∈ colVals X c, 0 ≤ y)
    (hcost : ∀ c, c < types.length → types.getD c CType.benefit = CType.cost →
      ∀ y ∈ colVals X c, 0 < y)
    (i : ℕ) (hi : i < X.length) :
    0 ≤ (saw_score types w X).getD i 0 ∧ (saw_score types w X).getD i 0 ≤ 1 := by
  have hXne : X ≠ [] := by
    intro h
    rw [h] at hi
    simp at hi
  have hnorm : ∀ c, c < types.length →
      0 ≤ ((saw_normalize types X).getD i []).getD c 0 ∧
      ((saw_normalize types X).getD i []).getD c 0 ≤ 1 := by
    intro c hc
    have hx := getD_mem_colVals X i c hi
    cases hty : types.getD c CType.benefit with
    | benefit =>
      rw [saw_normalize_getD_benefit types X i c hi hc hty]
      obtain ⟨hM, hnn⟩ := hben c hc hty
      exact ⟨div_nonneg (hnn _ hx) hM.le, (div_le_one hM).mpr (le_listMax hx)⟩
    | cost =>
      rw [saw_normalize_getD_cost types X i c hi hc hty]
      have hx0 := hcost c hc hty _ hx
      have hm0 := hcost c hc hty _ (listMin_mem (colVals_ne_nil X c hXne))
      exact ⟨div_nonneg hm0.le hx0.le, (div_le_one hx0).mpr (listMin_le hx)⟩
  have hwmem : ∀ c, c < types.length → w.getD c 0 ∈ w := by
    intro c hc
    rw [List.getD_eq_getElem w 0 (by rw [hw]; exact hc)]
    exact List.getElem_mem _
  rw [saw_score_getD types w X i hi hw]
  constructor
  · apply Finset.sum_nonneg
    intro c hc
    rw [Finset.mem_range] at hc
    rw [saw_weighted_getD types w X i c hi hc hw]
    exact mul_nonneg (hnorm c hc).1 (hw0 _ (hwmem c hc))
  · calc ∑ c ∈ Finset.range types.length,
        ((saw_weighted types w X).getD i []).getD c 0
        ≤ ∑ c ∈ Finset.range types.length, w.getD c 0 := by
          apply Finset.sum_le_sum
          intro c hc
          rw [Finset.mem_range] at hc
          rw [saw_weighted_getD types w X i c hi hc hw]
          calc ((saw_normalize types X).getD i []).getD c 0 * w.getD c 0
              ≤ 1 * w.getD c 0 :=
                mul_le_mul_of_nonneg_right (hnorm c hc).2 (hw0 _ (hwmem c hc))
            _ = w.getD c 0 := one_mul _
      _ = w.sum := by rw [list_sum_getD w, hw]
      _ = 1 := hw1

theorem saw_score_unit_range_witness :
    (([1] : List ℚ).length = ([CType.benefit] : List CType).length) ∧
    (([1] : List ℚ).sum = 1) ∧
    (0 < ([[2]] : List (List ℚ)).length) ∧
    (0 ≤ (saw_score [CType.benefit] [1] ([[2]] : List (List ℚ))).getD 0 0 ∧
      (saw_score [CType.benefit] [1] ([[2]] : List (List ℚ))).getD 0 0 ≤ 1) :=
  ⟨by decide, by simp, by decide,
    saw_score_unit_range ℚ [CType.benefit] [1] [[2]] (by decide) (by simp)
      (by simp)
      (by
        intro c hc hty
        have hc0 : c = 0 := by simpa using hc
        subst hc0
        refine ⟨by simp [colVals, listMax], ?_⟩
        intro y hy
        simp [colVals] at hy
        simp [hy])
      (by
        intro c hc hty
        have hc0 : c = 0 := by simpa using hc
        subst hc0
        exact absurd hty (by decide))
      0 (by decide)⟩

/-- C7 counterexample: the matrix with one benefit column holding the
entries -1 and 1 meets every validity condition of the claim (the
benefit column has positive maximum 1, there is no cost column, and the
weight vector [1] is nonnegative with sum 1), yet the first
alternative's SAW score is -1, outside the unit interval. -/
theorem saw_score_out_of_range_cex :
    0 < listMax (colVals ([[-1], [1]] : List (List ℚ)) 0) ∧
    (([1] : List ℚ).sum = 1) ∧ (∀ x ∈ ([1] : List ℚ), 0 ≤ x) ∧
    (∀ c, c < ([CType.benefit] : List CType).length →
      ([CType.benefit] : List CType).getD c CType.benefit = CType.cost →
      ∀ y ∈ colVals ([[-1], [1]] : List (List ℚ)) c, 0 < y) ∧
    (saw_score [CType.benefit] [1] ([[-1], [1]] : List (List ℚ))).getD 0 0 < 0 := by
  refine ⟨?_, by simp, by simp, ?_, ?_⟩
  · norm_num [colVals, listMax]
  · intro c hc hty
    have hc0 : c = 0 := by simpa using hc
    subst hc0
    exact absurd hty (by decide)
  · norm_num [saw_score, saw_weighted, weightRows, saw_normalize, colVals,
      listMax, listMin, List.range_succ]

/-- The clip floor is strictly positive. -/
theorem wpEps_pos : 0 < wpEps := by
  norm_num [wpEps]

/-- Generic in-bounds lookup through a zipped-and-mapped pair of lists. -/
theorem getD_zip_map {A B C : Type} (f : A → B → C) (l1 : List A) (l2 : List B)
    (i : ℕ) (h1 : i < l1.length) (h2 : i < l2.length) (da : A) (db : B) (dc : C) :
    ((l1.zip l2).map (fun p => f p.1 p.2)).getD i dc =
      f (l1.getD i da) (l2.getD i db) := by
  induction l1 generalizing l2 i with
  | nil => simp at h1
  | cons a t ih =>
    cases l2 with
    | nil => simp at h2
    | cons b s =>
      cases i with
      | zero => rfl
      | succ n => simpa using ih s n (by simpa using h1) (by simpa using h2)

/-- The exponent series has one entry per weight. -/
theorem wp_exp_length (types : List CType) (w : List ℝ) :
    (wp_exp types w).length = w.length := by
  simp [wp_exp]

/-- Entrywise characterization of the exponent series. -/
theorem wp_exp_getD (types : List CType) (w : List ℝ) (c : ℕ) (hc : c < w.length) :
    (wp_exp types w).getD c 0 =
      match types.getD c CType.benefit with
      | CType.benefit => w.getD c 0
      | CType.cost => -|w.getD c 0| := by
  unfold wp_exp
  rw [getD_map_of_lt _ _ _ (by simpa using hc) 0 0, getD_range hc]

/-- `S` has one entry per alternative. -/
theorem wp_S_length (types : List CType) (w : List ℝ) (X : List (List ℝ)) :
    (wp_S types w X).length = X.length := by
  simp [wp_S, wp_S_of]

/-- Each entry of `S` is the product over criteria of the clipped matrix
entry raised to the criterion's exponent. -/
theorem wp_S_getD (types : List CType) (w : List ℝ) (X : List (List ℝ))
    (hw : w.length = types.length) (hrow : ∀ r ∈ X, r.length = types.length)
    (i : ℕ) (hi : i < X.length) :
    (wp_S types w X).getD i 0 =
      ∏ e ∈ Finset.range types.length,
        max ((X.getD i []).getD e 0) wpEps ^ (wp_exp types w).getD e 0 := by
  have hXlen : (X.getD i []).length = types.length := by
    apply hrow
    rw [List.getD_eq_getElem X [] hi]
    exact List.getElem_mem hi
  unfold wp_S wp_S_of
  rw [getD_map_of_lt _ _ _ hi [] 0, list_prod_getD]
  have hlen : (((X.getD i []).map (fun x => max x wpEps)).zip
      (wp_exp types w)).length = types.length := by
    rw [List.length_zip, List.length_map, hXlen, wp_exp_length, hw, min_self]
  rw [List.length_map, hlen]
  apply Finset.prod_congr rfl
  intro e he
  rw [Finset.mem_range] at he
  rw [getD_zip_map (fun a b => a ^ b) _ _ e
    (by rw [List.length_map, hXlen]; exact he)
    (by rw [wp_exp_length, hw]; exact he) 0 0 1]
  rw [getD_map_of_lt _ _ _ (by rw [hXlen]; exact he) 0 0]

/-- Each entry of `V` is the matching entry of `S` divided by the sum of
`S` over all alternatives. -/
theorem wp_V_getD (types : List CType) (w : List ℝ) (X : List (List ℝ))
    (i : ℕ) (hi : i < X.length) :
    (wp_V types w X).getD i 0 =
      (wp_S types w X).getD i 0 /
        ∑ j ∈ Finset.range X.length, (wp_S types w X).getD j 0 := by
  unfold wp_V
  rw [getD_map_of_lt _ _ _ (by rw [wp_S_length]; exact hi) 0 0,
    list_sum_getD (wp_S types w X), wp_S_length]

/-- C2: the WP exponents equal the weights on benefit criteria and their
negation on cost criteria (for nonnegative weights), `S` is the row
product of clipped entries raised to those exponents, and `V` divides
each `S` entry by the total of `S`. -/
theorem wp_exponent_product_preference (types : List CType) (w : List ℝ)
    (X : List (List ℝ)) (hw : w.length = types.length)
    (hrow : ∀ r ∈ X, r.length = types.length) (hw0 : ∀ x ∈ w, 0 ≤ x)
    (i c : ℕ) (hi : i < X.length) (hc : c < types.length) :
    (types.getD c CType.benefit = CType.benefit →
      (wp_exp types w).getD c 0 = w.getD c 0) ∧
    (types.getD c CType.benefit = CType.cost →
      (wp_exp types w).getD c 0 = -(w.getD c 0)) ∧
    (wp_S types w X).getD i 0 =
      ∏ e ∈ Finset.range types.length,
        max ((X.getD i []).getD e 0) wpEps ^ (wp_exp types w).getD e 0 ∧
    (wp_V types w X).getD i 0 =
      (wp_S types w X).getD i 0 /
        ∑ j ∈ Finset.range X.length, (wp_S types w X).getD j 0 := by
  have hcw : c < w.length := by rw [hw]; exact hc
  refine ⟨fun hb => ?_, fun hb => ?_,
    wp_S_getD types w X hw hrow i hi, wp_V_getD types w X i hi⟩ <;>
    rw [wp_exp_getD types w c hcw, hb]
  have h0 : 0 ≤ w.getD c 0 := by
    apply hw0
    rw [List.getD_eq_getElem w 0 hcw]
    exact List.getElem_mem _
  rw [abs_of_nonneg h0]

theorem wp_exponent_product_preference_witness :
    (([1] : List ℝ).length = ([CType.benefit] : List CType).length) ∧
    (0 < ([[2]] : List (List ℝ)).length) ∧
    (0 < ([CType.benefit] : List CType).length) ∧
    (([CType.benefit].getD 0 CType.benefit = CType.benefit →
      (wp_exp [CType.benefit] [1]).getD 0 0 = ([1] : List ℝ).getD 0 0) ∧
    ([CType.benefit].getD 0 CType.benefit = CType.cost →
      (wp_exp [CType.benefit] [1]).getD 0 0 = -(([1] : List ℝ).getD 0 0)) ∧
    (wp_S [CType.benefit] [1] ([[2]] : List (List ℝ))).getD 0 0 =
      ∏ e ∈ Finset.range ([CType.benefit] : List CType).length,
        max ((([[2]] : List (List ℝ)).getD 0 []).getD e 0) wpEps ^
          (wp_exp [CType.benefit] [1]).getD e 0 ∧
    (wp_V [CType.benefit] [1] ([[2]] : List (List ℝ))).getD 0 0 =
      (wp_S [CType.benefit] [1] ([[2]] : List (List ℝ))).getD 0 0 /
        ∑ j ∈ Finset.range ([[2]] : List (List ℝ)).length,
          (wp_S [CType.benefit] [1] ([[2]] : List (List ℝ))).getD j 0) :=
  ⟨by decide, by decide, by decide,
    wp_exponent_product_preference [CType.benefit] [1] [[2]]
      (by decide) (by simp) (by simp) 0 0 (by decide) (by decide)⟩

/-- Every entry of `S` is strictly positive: the clip makes every base
at least `eps`, and a real power of a positive base is positive. -/
theorem wp_S_mem_pos (types : List CType) (w : List ℝ) (X : List (List ℝ)) :
    ∀ s ∈ wp_S types w X, 0 < s := by
  intro s hs
  unfold wp_S wp_S_of at hs
  rw [List.mem_map] at hs
  obtain ⟨row, _, rfl⟩ := hs
  apply List.prod_pos
  intro x hx
  rw [List.mem_map] at hx
  obtain ⟨p, hp, rfl⟩ := hx
  apply Real.rpow_pos_of_pos
  have h1 := (List.of_mem_zip hp).1
  rw [List.mem_map] at h1
  obtain ⟨y, _, hy⟩ := h1
  rw [← hy]
  exact lt_of_lt_of_le wpEps_pos (le_max_right y wpEps)

/-- C10: for every input matrix with at least one alternative —
regardless of zero or negative entries — each `S[i]` is strictly
positive, the denominator `sum_j S[j]` is strictly positive (hence
nonzero), and each `V[i]` is exactly `S[i]` divided by that nonzero
denominator, so the division defining `V` never divides by zero. -/
theorem wp_preference_well_defined (types : List CType) (w : List ℝ)
    (X : List (List ℝ)) (hX : X ≠ []) :
    (∀ i, i < X.length → 0 < (wp_S types w X).getD i 0) ∧
    0 < (wp_S types w X).sum ∧
    (wp_S types w X).sum ≠ 0 ∧
    (∀ i, i < X.length → (wp_V types w X).getD i 0 =
      (wp_S types w X).getD i 0 / (wp_S types w X).sum) := by
  have hSne : wp_S types w X ≠ [] := by
    unfold wp_S wp_S_of
    rw [Ne, List.map_eq_nil_iff]
    exact hX
  have hsum : 0 < (wp_S types w X).sum :=
    List.sum_pos _ (wp_S_mem_pos types w X) hSne
  refine ⟨?_, hsum, ne_of_gt hsum, ?_⟩
  · intro i hi
    apply wp_S_mem_pos
    rw [List.getD_eq_getElem _ 0 (by rw [wp_S_length]; exact hi)]
    exact List.getElem_mem _
  · intro i hi
    unfold wp_V
    rw [getD_map_of_lt _ _ _ (by rw [wp_S_length]; exact hi) 0 0]

theorem wp_preference_well_defined_witness :
    (([[-5]] : List (List ℝ)) ≠ []) ∧
    ((∀ i, i < ([[-5]] : List (List ℝ)).length →
      0 < (wp_S [CType.benefit] [1] ([[-5]] : List (List ℝ))).getD i 0) ∧
    0 < (wp_S [CType.benefit] [1] ([[-5]] : List (List ℝ))).sum ∧
    (wp_S [CType.benefit] [1] ([[-5]] : List (List ℝ))).sum ≠ 0 ∧
    (∀ i, i < ([[-5]] : List (List ℝ)).length →
      (wp_V [CType.benefit] [1] ([[-5]] : List (List ℝ))).getD i 0 =
        (wp_S [CType.benefit] [1] ([[-5]] : List (List ℝ))).getD i 0 /
          (wp_S [CType.benefit] [1] ([[-5]] : List (List ℝ))).sum)) :=
  ⟨by simp, wp_preference_well_defined [CType.benefit] [1] [[-5]] (by simp)⟩

/-- C6 counterexample: two comparison tables that differ only in row
order (two alternatives tied at rank 1 under both methods, names 0 and
1) make the Pembanding page report different best alternatives: idxmin
returns the first row of the tied group, which depends on row order. -/
theorem compare_perm_cex :
    (mkComp [1, 0] [((1 : ℚ), 1), ((1 : ℚ), 1)] [((1 : ℚ), 1), ((1 : ℚ), 1)]).Perm
      (mkComp [0, 1] [((1 : ℚ), 1), ((1 : ℚ), 1)] [((1 : ℚ), 1), ((1 : ℚ), 1)]) ∧
    best_saw (mkComp [0, 1] [((1 : ℚ), 1), ((1 : ℚ), 1)]
        [((1 : ℚ), 1), ((1 : ℚ), 1)]) ≠
      best_saw (mkComp [1, 0] [((1 : ℚ), 1), ((1 : ℚ), 1)]
        [((1 : ℚ), 1), ((1 : ℚ), 1)]) := by
  decide

/-- The idxmin accumulator lands on the unique minimizer. -/
theorem idxminAcc_eq_of_unique {A : Type} (f : A → ℕ) :
    ∀ (t : List A) (a x : A), x ∈ a :: t → (∀ y ∈ a :: t, f x ≤ f y) →
      (∀ y ∈ a :: t, f y = f x → y = x) → idxminAcc f a t = x := by
  intro t
  induction t with
  | nil =>
    intro a x hx _ _
    have hax : x = a := by simpa using hx
    simp [idxminAcc, hax]
  | cons b t ih =>
    intro a x hx hmin huniq
    unfold idxminAcc
    split
    case isTrue h =>
      have hxbt : x ∈ b :: t := by
        rcases List.mem_cons.mp hx with rfl | hx1
        · exact ((not_le.mpr h) (hmin b (by simp))).elim
        · exact hx1
      exact ih b x hxbt (fun y hy => hmin y (List.mem_cons_of_mem a hy))
        (fun y hy => huniq y (List.mem_cons_of_mem a hy))
    case isFalse h =>
      have hxat : x ∈ a :: t := by
        rcases List.mem_cons.mp hx with rfl | hx1
        · exact List.mem_cons_self _ _
        · rcases List.mem_cons.mp hx1 with rfl | hx2
          · have hax : a = x :=
              huniq a (by simp) (le_antisymm (not_lt.mp h) (hmin a (by simp)))
            rw [← hax]
            exact List.mem_cons_self _ _
          · exact List.mem_cons_of_mem a hx2
      refine ih a x hxat (fun y hy => hmin y ?_) (fun y hy => huniq y ?_) <;>
        · rcases List.mem_cons.mp hy with rfl | hy1
          · simp
          · exact List.mem_cons_of_mem _ (List.mem_cons_of_mem b hy1)

/-- On a table with a unique minimizer, idxmin finds exactly it. -/
theorem firstMinBy_eq_of_unique {A : Type} (f : A → ℕ) (l : List A) (x : A)
    (hx : x ∈ l) (hmin : ∀ y ∈ l, f x ≤ f y)
    (huniq : ∀ y ∈ l, f y = f x → y = x) :
    firstMinBy f l = some x := by
  cases l with
  | nil => simp at hx
  | cons a t =>
    rw [show firstMinBy f (a :: t) = some (idxminAcc f a t) from rfl,
      idxminAcc_eq_of_unique f t a x hx hmin huniq]

/-- C6 (amended): the Pembanding page joins the SAW and WP result rows
to the alternative names by row position (both result sets are produced
from the same matrix, in the same row order); whenever exactly one row
holds the minimal SAW rank and exactly one row holds the minimal WP
rank, the agreement verdict and both best alternatives are invariant
under any permutation of the comparison rows, and the reported bests
are exactly those unique top-ranked rows. -/
theorem compare_best_perm_invariant (S : Type) (l l2 : List (CompRow S))
    (hperm : l.Perm l2)
    (x : CompRow S) (hxmem : x ∈ l)
    (hxmin : ∀ y ∈ l, x.rank_saw ≤ y.rank_saw)
    (hxuniq : ∀ y ∈ l, y.rank_saw = x.rank_saw → y = x)
    (z : CompRow S) (hzmem : z ∈ l)
    (hzmin : ∀ y ∈ l, z.rank_wp ≤ y.rank_wp)
    (hzuniq : ∀ y ∈ l, y.rank_wp = z.rank_wp → y = z) :
    best_saw l2 = best_saw l ∧ best_wp l2 = best_wp l ∧
    agreement l2 = agreement l ∧
    best_saw l = some x.nama ∧ best_wp l = some z.nama := by
  have h1 : firstMinBy (fun r => r.rank_saw) l = some x :=
    firstMinBy_eq_of_unique _ l x hxmem hxmin hxuniq
  have h2 : firstMinBy (fun r => r.rank_saw) l2 = some x :=
    firstMinBy_eq_of_unique _ l2 x (hperm.mem_iff.mp hxmem)
      (fun y hy => hxmin y (hperm.mem_iff.mpr hy))
      (fun y hy => hxuniq y (hperm.mem_iff.mpr hy))
  have h3 : firstMinBy (fun r => r.rank_wp) l = some z :=
    firstMinBy_eq_of_unique _ l z hzmem hzmin hzuniq
  have h4 : firstMinBy (fun r => r.rank_wp) l2 = some z :=
    firstMinBy_eq_of_unique _ l2 z (hperm.mem_iff.mp hzmem)
      (fun y hy => hzmin y (hperm.mem_iff.mpr hy))
      (fun y hy => hzuniq y (hperm.mem_iff.mpr hy))
  have hbs1 : best_saw l = some x.nama := by unfold best_saw; rw [h1]; rfl
  have hbs2 : best_saw l2 = some x.nama := by unfold best_saw; rw [h2]; rfl
  have hbw1 : best_wp l = some z.nama := by unfold best_wp; rw [h3]; rfl
  have hbw2 : best_wp l2 = some z.nama := by unfold best_wp; rw [h4]; rfl
  refine ⟨by rw [hbs1, hbs2], by rw [hbw1, hbw2], ?_, hbs1, hbw1⟩
  unfold agreement
  rw [hbs1, hbs2, hbw1, hbw2]

theorem compare_best_perm_invariant_witness :
    ((mkComp [0, 1] [((1 : ℚ), 1), ((0 : ℚ), 2)] [((1 : ℚ), 1), ((0 : ℚ), 2)]).Perm
      (mkComp [1, 0] [((0 : ℚ), 2), ((1 : ℚ), 1)] [((0 : ℚ), 2), ((1 : ℚ), 1)])) ∧
    (best_saw (mkComp [1, 0] [((0 : ℚ), 2), ((1 : ℚ), 1)]
        [((0 : ℚ), 2), ((1 : ℚ), 1)]) =
      best_saw (mkComp [0, 1] [((1 : ℚ), 1), ((0 : ℚ), 2)]
        [((1 : ℚ), 1), ((0 : ℚ), 2)]) ∧
    best_wp (mkComp [1, 0] [((0 : ℚ), 2), ((1 : ℚ), 1)]
        [((0 : ℚ), 2), ((1 : ℚ), 1)]) =
      best_wp (mkComp [0, 1] [((1 : ℚ), 1), ((0 : ℚ), 2)]
        [((1 : ℚ), 1), ((0 : ℚ), 2)]) ∧
    agreement (mkComp [1, 0] [((0 : ℚ), 2), ((1 : ℚ), 1)]
        [((0 : ℚ), 2), ((1 : ℚ), 1)]) =
      agreement (mkComp [0, 1] [((1 : ℚ), 1), ((0 : ℚ), 2)]
        [((1 : ℚ), 1), ((0 : ℚ), 2)]) ∧
    best_saw (mkComp [0, 1] [((1 : ℚ), 1), ((0 : ℚ), 2)]
        [((1 : ℚ), 1), ((0 : ℚ), 2)]) =
      some (CompRow.mk (S := ℚ) 0 1 1 1 1).nama ∧
    best_wp (mkComp [0, 1] [((1 : ℚ), 1), ((0 : ℚ), 2)]
        [((1 : ℚ), 1), ((0 : ℚ), 2)]) =
      some (CompRow.mk (S := ℚ) 0 1 1 1 1).nama) :=
  ⟨by decide,
    compare_best_perm_invariant ℚ
      (mkComp [0, 1] [((1 : ℚ), 1), ((0 : ℚ), 2)] [((1 : ℚ), 1), ((0 : ℚ), 2)])
      (mkComp [1, 0] [((0 : ℚ), 2), ((1 : ℚ), 1)] [((0 : ℚ), 2), ((1 : ℚ), 1)])
      (by decide)
      (CompRow.mk 0 1 1 1 1) (by decide) (by decide) (by decide)
      (CompRow.mk 0 1 1 1 1) (by decide) (by decide) (by decide)⟩

/-- Writing at the reference just allocated replaces only the appended
cell. -/
theorem set_append_singleton {A : Type} :
    ∀ (h : List A) (a b : A), (h ++ [a]).set h.length b = h ++ [b]
  | [], _, _ => rfl
  | c :: t, a, b => by
    simp only [List.cons_append, List.length_cons, List.set_cons_succ]
    rw [set_append_singleton t a b]

/-- Cells below the allocation point are untouched by an append. -/
theorem hGet_append_lt (h : Heap) (l : List Obj) (r : ℕ) (hr : r < h.length) :
    hGet (h ++ l) r = hGet h r := by
  unfold hGet
  exact List.getD_append h l _ r hr

/-- The appended cell is read back as written. -/
theorem hGet_append_self (h : Heap) (b : Obj) :
    hGet (h ++ [b]) h.length = b := by
  unfold hGet
  rw [List.getD_append_right h [b] _ h.length (le_refl h.length)]
  simp

/-- Closed form of the heap-level SAW run: it appends exactly one cell
(the `norm` frame written through its fresh reference) and its outputs
are the pure `saw_weighted`, `saw_score` and `saw_rank` of the heap
contents behind `xr` and `wr`. -/
theorem saw_full_heap_eq (types : List CType) (h : Heap) (xr wr : ℕ) :
    saw_full_heap types h xr wr =
      (h ++ [Obj.df (saw_normalize types ((hGet h xr).asDf))], h.length,
        (saw_weighted types ((hGet h wr).asSer) ((hGet h xr).asDf),
          saw_score types ((hGet h wr).asSer) ((hGet h xr).asDf),
          saw_rank types ((hGet h wr).asSer) ((hGet h xr).asDf))) := by
  unfold saw_full_heap hAlloc hSet
  dsimp only
  rw [set_append_singleton, hGet_append_self]
  rfl

/-- Closed form of the heap-level WP run: it appends exactly one cell
(the `exp` series written through its fresh reference) and its outputs
are the pure `wp_S`, `wp_V` and `wp_rank` of the heap contents behind
`xr` and `wr`; the matrix is read back from the heap after the exponent
updates, so the cell behind `xr` must predate the run. -/
theorem wp_full_heap_eq (types : List CType) (h : Heap) (xr wr : ℕ)
    (hxr : xr < h.length) :
    wp_full_heap types h xr wr =
      (h ++ [Obj.ser (wp_exp types ((hGet h wr).asSer))], h.length,
        (wp_S types ((hGet h wr).asSer) ((hGet h xr).asDf),
          wp_V types ((hGet h wr).asSer) ((hGet h xr).asDf),
          wp_rank types ((hGet h wr).asSer) ((hGet h xr).asDf))) := by
  unfold wp_full_heap hAlloc hSet
  dsimp only
  rw [set_append_singleton, hGet_append_self, hGet_append_lt h _ xr hxr]
  rfl

/-- C9: neither scorer mutates its inputs and their outputs depend only
on their inputs: a heap-level SAW or WP run leaves every pre-existing
cell (in particular the decision matrix behind `xr` and the weight
series behind `wr`) unchanged, each run's outputs are the pure scoring
functions of those cells, and running either scorer after the other
yields exactly the outputs of running it alone on the original heap. -/
theorem scorers_no_mutation_independent (types : List CType) (h : Heap)
    (xr wr : ℕ) (hxr : xr < h.length) (hwr : wr < h.length) :
    (∀ r, r < h.length → hGet (saw_full_heap types h xr wr).1 r = hGet h r) ∧
    (∀ r, r < h.length → hGet (wp_full_heap types h xr wr).1 r = hGet h r) ∧
    (saw_full_heap types h xr wr).2.2 =
      (saw_weighted types ((hGet h wr).asSer) ((hGet h xr).asDf),
        saw_score types ((hGet h wr).asSer) ((hGet h xr).asDf),
        saw_rank types ((hGet h wr).asSer) ((hGet h xr).asDf)) ∧
    (wp_full_heap types h xr wr).2.2 =
      (wp_S types ((hGet h wr).asSer) ((hGet h xr).asDf),
        wp_V types ((hGet h wr).asSer) ((hGet h xr).asDf),
        wp_rank types ((hGet h wr).asSer) ((hGet h xr).asDf)) ∧
    (wp_full_heap types (saw_full_heap types h xr wr).1 xr wr).2.2 =
      (wp_full_heap types h xr wr).2.2 ∧
    (saw_full_heap types (wp_full_heap types h xr wr).1 xr wr).2.2 =
      (saw_full_heap types h xr wr).2.2 := by
  have hs := saw_full_heap_eq types h xr wr
  have hw2 := wp_full_heap_eq types h xr wr hxr
  refine ⟨?_, ?_, ?_, ?_, ?_, ?_⟩
  · intro r hr
    rw [hs]
    exact hGet_append_lt h _ r hr
  · intro r hr
    rw [hw2]
    exact hGet_append_lt h _ r hr
  · rw [hs]
  · rw [hw2]
  · rw [hs]
    rw [wp_full_heap_eq types (h ++ [Obj.df (saw_normalize types ((hGet h xr).asDf))])
      xr wr (by rw [List.length_append]; omega), hw2]
    rw [hGet_append_lt h _ xr hxr, hGet_append_lt h _ wr hwr]
  · rw [hw2]
    rw [saw_full_heap_eq types
      (h ++ [Obj.ser (wp_exp types ((hGet h wr).asSer))]) xr wr, hs]
    rw [hGet_append_lt h _ xr hxr, hGet_append_lt h _ wr hwr]

theorem scorers_no_mutation_independent_witness :
    (0 < ([Obj.df [[1]], Obj.ser [1]] : Heap).length) ∧
    (1 < ([Obj.df [[1]], Obj.ser [1]] : Heap).length) ∧
    ((∀ r, r < ([Obj.df [[1]], Obj.ser [1]] : Heap).length →
      hGet (saw_full_heap [CType.benefit] [Obj.df [[1]], Obj.ser [1]] 0 1).1 r =
        hGet [Obj.df [[1]], Obj.ser [1]] r) ∧
    (∀ r, r < ([Obj.df [[1]], Obj.ser [1]] : Heap).length →
      hGet (wp_full_heap [CType.benefit] [Obj.df [[1]], Obj.ser [1]] 0 1).1 r =
        hGet [Obj.df [[1]], Obj.ser [1]] r) ∧
    (saw_full_heap [CType.benefit] [Obj.df [[1]], Obj.ser [1]] 0 1).2.2 =
      (saw_weighted [CType.benefit]
          ((hGet [Obj.df [[1]], Obj.ser [1]] 1).asSer)
          ((hGet [Obj.df [[1]], Obj.ser [1]] 0).asDf),
        saw_score [CType.benefit]
          ((hGet [Obj.df [[1]], Obj.ser [1]] 1).asSer)
          ((hGet [Obj.df [[1]], Obj.ser [1]] 0).asDf),
        saw_rank [CType.benefit]
          ((hGet [Obj.df [[1]], Obj.ser [1]] 1).asSer)
          ((hGet [Obj.df [[1]], Obj.ser [1]] 0).asDf)) ∧
    (wp_full_heap [CType.benefit] [Obj.df [[1]], Obj.ser [1]] 0 1).2.2 =
      (wp_S [CType.benefit]
          ((hGet [Obj.df [[1]], Obj.ser [1]] 1).asSer)
          ((hGet [Obj.df [[1]], Obj.ser [1]] 0).asDf),
        wp_V [CType.benefit]
          ((hGet [Obj.df [[1]], Obj.ser [1]] 1).asSer)
          ((hGet [Obj.df [[1]], Obj.ser [1]] 0).asDf),
        wp_rank [CType.benefit]
          ((hGet [Obj.df [[1]], Obj.ser [1]] 1).asSer)
          ((hGet [Obj.df [[1]], Obj.ser [1]] 0).asDf)) ∧
    (wp_full_heap [CType.benefit]
        (saw_full_heap [CType.benefit] [Obj.df [[1]], Obj.ser [1]] 0 1).1 0 1).2.2 =
      (wp_full_heap [CType.benefit] [Obj.df [[1]], Obj.ser [1]] 0 1).2.2 ∧
    (saw_full_heap [CType.benefit]
        (wp_full_heap [CType.benefit] [Obj.df [[1]], Obj.ser [1]] 0 1).1 0 1).2.2 =
      (saw_full_heap [CType.benefit] [Obj.df [[1]], Obj.ser [1]] 0 1).2.2) :=
  ⟨by decide, by decide,
    scorers_no_mutation_independent [CType.benefit] [Obj.df [[1]], Obj.ser [1]]
      0 1 (by decide) (by decide)⟩
